import Mathlib

/-!
Verification of the subtitles-corrector repository.

The development shallowly embeds the Python sources
(src/subtitles_corrector.py and src/transfer_linebreaks.py) over
`List Char` strings.  Python slicing, indexing (with negative wrap),
str.strip, str.find / str.rfind, and the relevant fragment of
difflib.SequenceMatcher (isjunk = None, autojunk = True) are modelled
exactly; machine arithmetic is Nat (all quantities in the source are
provably non-negative).  The two floating point divisions in the source
(ratio computations later truncated with int) are modelled with exact
Nat floor division; this agrees with the float computation away from
ties at double precision.  Fallible operations (indexing, division by
zero) live in Option.  Character classes follow the ASCII reading of
the regex classes used by the source.
-/

namespace SubCorr

/-- Whitespace characters of the ASCII range, as recognised by Python
str.strip and by the regex whitespace class. -/
def pySpace (c : Char) : Bool :=
  c = ' ' || c = '\t' || c = '\n' || c = '\x0d' || c = '\x0b' || c = '\x0c'

/-- ASCII decimal digit, the regex digit class over ASCII input. -/
def pyDigit (c : Char) : Bool :=
  '0' ≤ c && c ≤ '9'

/-- Python str.strip with no argument: drop whitespace on both ends. -/
def pyStrip (s : List Char) : List Char :=
  ((s.dropWhile pySpace).reverse.dropWhile pySpace).reverse

/-- Python slice s[i:j] for non-negative bounds: clamping, never failing. -/
def pySlice (s : List Char) (i j : Nat) : List Char :=
  (s.take j).drop i

/-- Python slice s[:n] where n may be negative (counts from the end). -/
def pySliceTo {α : Type} (s : List α) (n : Int) : List α :=
  if n < 0 then s.take (s.length - n.natAbs) else s.take n.toNat

/-- Python indexing s[i] with negative wrap: defined for -len ≤ i < len. -/
def pyGet (s : List Char) (i : Int) : Option Char :=
  if 0 ≤ i then s.get? i.toNat
  else if i.natAbs ≤ s.length then s.get? (s.length - i.natAbs) else none

/-- Python str.find(ch, start): least index ≥ start holding ch, if any. -/
def pyFindFrom (s : List Char) (ch : Char) (start : Nat) : Option Nat :=
  let t := s.drop start
  let i := t.indexOf ch
  if i < t.length then some (start + i) else none

/-- Python str.rfind(ch, 0, stop): greatest index < stop holding ch, if any. -/
def pyRfindBefore (s : List Char) (ch : Char) (stop : Nat) : Option Nat :=
  let t := s.take stop
  let r := t.reverse.indexOf ch
  if r < t.length then some (t.length - 1 - r) else none

/-- The character of one decimal digit value. -/
def digitChar : Nat → Char
  | 0 => '0' | 1 => '1' | 2 => '2' | 3 => '3' | 4 => '4'
  | 5 => '5' | 6 => '6' | 7 => '7' | 8 => '8' | _ => '9'

/-- Decimal digits, most significant first; the first argument bounds
the recursion depth structurally (the value itself suffices, since
division by ten strictly decreases positive numbers). -/
def natDigitsGo : Nat → Nat → List Char
  | 0, _ => []
  | fuel + 1, n =>
      if n < 10 then [digitChar n]
      else natDigitsGo fuel (n / 10) ++ [digitChar (n % 10)]

/-- Decimal digit string of a natural number, as Python str(int). -/
def natDigits (n : Nat) : List Char :=
  natDigitsGo (n + 1) n

/-- Value of a decimal digit string, as Python int(string). -/
def natOfDigits (ds : List Char) : Nat :=
  ds.foldl (fun acc c => acc * 10 + (c.toNat - 48)) 0

/-! ## difflib.SequenceMatcher, for isjunk = None and autojunk = True

Embeds __chain_b, find_longest_match and get_matching_blocks of the
CPython difflib module, specialised to isjunk = None: the junk set is
then empty, so the junk guards of the source are vacuous and the two
junk extension loops never fire.  The autojunk purge only removes
popular elements from the b2j table (they are not junk). -/

/-- Ascending list of positions of c in b: the per-element entry of the
b2j table of __chain_b, before the autojunk purge. -/
def b2jRaw (b : List Char) (c : Char) : List Nat :=
  (List.range b.length).filter (fun j => b.get? j = some c)

/-- The b2j table after the autojunk purge of __chain_b: when b holds at
least 200 elements, elements occurring more than n / 100 + 1 times are
dropped from the table. -/
def b2j (b : List Char) (c : Char) : List Nat :=
  if 200 ≤ b.length ∧ b.length / 100 + 1 < (b2jRaw b c).length then []
  else b2jRaw b c

/-- Lookup in a j2len row (a Python dict), default 0. -/
def j2lenGet (m : List (Nat × Nat)) (j : Nat) : Nat :=
  match m.find? (fun p => p.1 == j) with
  | some p => p.2
  | none => 0

/-- The inner loop of find_longest_match (for j in b2j.get(a[i], [])):
j below blo is skipped, j at or beyond bhi stops the loop (the table is
ascending); otherwise the chain length ending at (i, j) extends the
chain ending at (i-1, j-1) of the previous row.  The source looks up
j-1 in a dict, so for j = 0 the key -1 misses and yields the default 0;
hence the explicit j = 0 case here.  State: the new row (a dict keyed by
the distinct j values of this loop, most recent entry in front) and the
current best triple (besti, bestj, bestsize). -/
def flmInner (blo bhi : Nat) (prev : List (Nat × Nat)) (i : Nat) :
    List Nat → List (Nat × Nat) → Nat × Nat × Nat → List (Nat × Nat) × (Nat × Nat × Nat)
  | [], newm, best => (newm, best)
  | j :: js, newm, best =>
      if j < blo then flmInner blo bhi prev i js newm best
      else if bhi ≤ j then (newm, best)
      else
        let k := (if j = 0 then 0 else j2lenGet prev (j - 1)) + 1
        let best' := if best.2.2 < k then (i + 1 - k, j + 1 - k, k) else best
        flmInner blo bhi prev i js ((j, k) :: newm) best'

/-- The row loop of find_longest_match (for i in range(alo, ahi)),
recursing on the number of remaining rows. -/
def flmRows (a : List Char) (bj : Char → List Nat) (blo bhi : Nat) :
    Nat → Nat → List (Nat × Nat) → Nat × Nat × Nat → Nat × Nat × Nat
  | _, 0, _, best => best
  | i, steps + 1, prev, best =>
      let r := flmInner blo bhi prev i (bj (a.getD i ' ')) [] best
      flmRows a bj blo bhi (i + 1) steps r.1 r.2

/-- First extension loop of find_longest_match: grow the best match
leftwards over equal characters (the junk guard is vacuous); besti
decreases by one at each step, giving structural recursion. -/
def extendBack (a b : List Char) (alo blo : Nat) :
    Nat → Nat → Nat → Nat × Nat × Nat
  | 0, bestj, bestsize => (0, bestj, bestsize)
  | besti + 1, bestj, bestsize =>
      if alo < besti + 1 ∧ blo < bestj ∧ a.getD besti ' ' = b.getD (bestj - 1) ' ' then
        extendBack a b alo blo besti (bestj - 1) (bestsize + 1)
      else (besti + 1, bestj, bestsize)

/-- Second extension loop of find_longest_match: grow the best match
rightwards over equal characters (the junk guard is vacuous).  The loop
runs at most ahi - (besti + bestsize) times; extendFwd passes exactly
that number as the structural bound, and the guard fails exactly when
the bound reaches zero, so the bound never cuts the loop. -/
def extendFwdGo (a b : List Char) (ahi bhi besti bestj : Nat) :
    Nat → Nat → Nat
  | 0, bestsize => bestsize
  | fuel + 1, bestsize =>
      if besti + bestsize < ahi ∧ bestj + bestsize < bhi ∧
          a.getD (besti + bestsize) ' ' = b.getD (bestj + bestsize) ' ' then
        extendFwdGo a b ahi bhi besti bestj fuel (bestsize + 1)
      else bestsize

def extendFwd (a b : List Char) (ahi bhi besti bestj bestsize : Nat) : Nat :=
  extendFwdGo a b ahi bhi besti bestj (ahi - (besti + bestsize)) bestsize

/-- find_longest_match(alo, ahi, blo, bhi) of difflib for isjunk = None:
dynamic-programming core, then the two non-junk extension loops (the two
junk loops never fire, the junk set being empty). -/
def findLongestMatch (a b : List Char) (bj : Char → List Nat)
    (alo ahi blo bhi : Nat) : Nat × Nat × Nat :=
  let core := flmRows a bj blo bhi alo (ahi - alo) [] (alo, blo, 0)
  let back := extendBack a b alo blo core.1 core.2.1 core.2.2
  (back.1, back.2.1, extendFwd a b ahi bhi back.1 back.2.1 back.2.2)

/-- Range invariant of a j2len row before processing row i: every entry
(j, len) lies in the b window and its chain length is bounded by the
window offsets on both sides. -/
def RowInv (alo blo bhi i : Nat) (m : List (Nat × Nat)) : Prop :=
  ∀ p ∈ m, blo ≤ p.1 ∧ p.1 < bhi ∧ p.2 ≤ p.1 + 1 - blo ∧ p.2 ≤ i - alo

/-- Range invariant of the best triple before processing row i. -/
def BestInv (alo blo bhi i : Nat) (t : Nat × Nat × Nat) : Prop :=
  alo ≤ t.1 ∧ t.1 + t.2.2 ≤ i ∧ blo ≤ t.2.1 ∧ t.2.1 + t.2.2 ≤ bhi

/-- The queue loop of get_matching_blocks, as recursion on the window:
pop a window, find the longest match there, keep it when non-empty,
recurse into the two remaining subwindows.  The queue of the source
performs exactly this recursion, in an order that the sort which follows
cancels; the recursion here lists the left subwindow first, then the
block, then the right subwindow.  The first argument bounds the
recursion depth structurally; matchRegionsGo_fuel below shows that any
bound at least the window width gives the same result, so the bound
never cuts the recursion. -/
def matchRegionsGo (a b : List Char) (bj : Char → List Nat) :
    Nat → Nat → Nat → Nat → Nat → List (Nat × Nat × Nat)
  | 0, _, _, _, _ => []
  | fuel + 1, alo, ahi, blo, bhi =>
      let m := findLongestMatch a b bj alo ahi blo bhi
      if m.2.2 = 0 then []
      else
        (if alo < m.1 ∧ blo < m.2.1 then
          matchRegionsGo a b bj fuel alo m.1 blo m.2.1 else []) ++
        m ::
        (if m.1 + m.2.2 < ahi ∧ m.2.1 + m.2.2 < bhi then
          matchRegionsGo a b bj fuel (m.1 + m.2.2) ahi (m.2.1 + m.2.2) bhi else [])

/-- The block recursion with the bound instantiated to the window width. -/
def matchRegions (a b : List Char) (bj : Char → List Nat)
    (alo ahi blo bhi : Nat) : List (Nat × Nat × Nat) :=
  matchRegionsGo a b bj (ahi - alo) alo ahi blo bhi

/-- Python tuple comparison on block triples, as used by the sort of
matching_blocks in get_matching_blocks.  The order is linear and
antisymmetric, so every sort produces the same list; insertion sort
below stands in for the Timsort of the source. -/
def tripleLe (x y : Nat × Nat × Nat) : Bool :=
  decide (x.1 < y.1 ∨ (x.1 = y.1 ∧ (x.2.1 < y.2.1 ∨ (x.2.1 = y.2.1 ∧ x.2.2 ≤ y.2.2))))

/-- The adjacent-merge loop of get_matching_blocks: walk the sorted
blocks with an accumulator block starting at (0, 0, 0); a block adjacent
to the accumulator on both sides widens it, any other block flushes the
accumulator (when non-empty) and replaces it. -/
def mergeAdjacent : Nat × Nat × Nat → List (Nat × Nat × Nat) → List (Nat × Nat × Nat)
  | (i1, j1, k1), [] => if k1 ≠ 0 then [(i1, j1, k1)] else []
  | (i1, j1, k1), (i2, j2, k2) :: rest =>
      if i1 + k1 = i2 ∧ j1 + k1 = j2 then mergeAdjacent (i1, j1, k1 + k2) rest
      else if k1 ≠ 0 then (i1, j1, k1) :: mergeAdjacent (i2, j2, k2) rest
      else mergeAdjacent (i2, j2, k2) rest

/-- get_matching_blocks of difflib: the queue loop, the sort, the
adjacent merge, and the final sentinel block of size zero. -/
def getMatchingBlocks (a b : List Char) : List (Nat × Nat × Nat) :=
  mergeAdjacent (0, 0, 0)
    (List.insertionSort (fun x y => tripleLe x y = true)
      (matchRegions a b (b2j b) 0 a.length 0 b.length))
  ++ [(a.length, b.length, 0)]

/-- A subtitle entry as built by parse_srt (source lines 17-24):
index, timestamp and text. -/
structure Cue where
  index : Nat
  timestamp : List Char
  text : List Char
deriving Repr, DecidableEq

/-- One output block of format_srt (source line 130):
index, newline, timestamp, newline, text, newline. -/
def formatBlock (c : Cue) : List Char :=
  natDigits c.index ++ '\n' :: c.timestamp ++ '\n' :: c.text ++ ['\n']

/-- The loop of format_srt (source lines 123-130): collect a block for
every cue whose text is non-empty, in order. -/
def srtContentList : List Cue → List (List Char)
  | [] => []
  | s :: rest =>
      if s.text = [] then srtContentList rest
      else formatBlock s :: srtContentList rest

/-- format_srt (source lines 121-132): join the blocks with one blank
line (the block itself ends in a newline, the joiner adds the second). -/
def format_srt (subs : List Cue) : List Char :=
  List.intercalate ['\n'] (srtContentList subs)

/-! ## align_text_to_subtitles (source lines 31-119) -/

/-- Expansion of one matched block into per-offset pairs (source lines
45-46). -/
def expandBlock (blk : Nat × Nat × Nat) : List (Nat × Nat) :=
  (List.range blk.2.2).map (fun i => (blk.1 + i, blk.2.1 + i))

/-- The position map of source lines 43-46, as an association list in
most-recent-write-first order, matching the overwrite semantics of the
Python dict (the blocks are disjoint, so no overwrite happens). -/
def buildPositionMap (a b : List Char) : List (Nat × Nat) :=
  (getMatchingBlocks a b).foldl
    (fun pm blk => (expandBlock blk).foldl (fun m e => e :: m) pm) []

/-- Dict get with default None: the first hit is the most recent write. -/
def pmGet (pm : List (Nat × Nat)) (k : Nat) : Option Nat :=
  (pm.find? (fun p => p.1 == k)).map (fun p => p.2)

/-- The backward scan of source lines 63-67: the first mapped offset
from lo + n down to lo, its value plus one to include that character. -/
def backScan (pm : List (Nat × Nat)) (lo : Nat) : Nat → Option Nat
  | 0 => (pmGet pm lo).map (· + 1)
  | n + 1 =>
      match pmGet pm (lo + n + 1) with
      | some v => some (v + 1)
      | none => backScan pm lo n

/-- The interpolation fallback of source lines 72-82: ratio 1.0 once the
offset reaches the end of the concatenated original text, otherwise the
proportional share of the reference length, truncated by int(); the
float arithmetic of the source is modelled by exact floor division. -/
def interpOffset (off lenOrig lenRef : Nat) : Nat :=
  if lenOrig ≤ off then lenRef
  else off * lenRef / lenOrig

/-- The span derivation of source lines 60-82: direct lookup for the
start, backward scan for the end, and when either end is unmapped the
interpolation fallback recomputes both ends. -/
def cueSpan (pm : List (Nat × Nat)) (lenOrig lenRef sub_start sub_end : Nat) :
    Nat × Nat :=
  match pmGet pm sub_start, backScan pm sub_start (sub_end - sub_start) with
  | some cs, some ce => (cs, ce)
  | _, _ =>
      (interpOffset sub_start lenOrig lenRef, interpOffset sub_end lenOrig lenRef)

/-- Start-boundary snapping of source lines 85-89: when the span does
not start just after a space, move the start back past the previous
space, when one exists.  The character read uses Python indexing and
fails (None) only out of range, which never happens in the calls the
aligner makes (snapStart_isSome). -/
def snapStart (ref : List Char) (cs : Nat) : Option Nat :=
  if 0 < cs then
    match pyGet ref ((cs : Int) - 1) with
    | none => none
    | some c =>
        if c ≠ ' ' then
          match pyRfindBefore ref ' ' cs with
          | some p => some (p + 1)
          | none => some cs
        else some cs
  else some cs

/-- End-boundary snapping of source lines 91-95: when the span does not
end on a space, move the end forward to the next space, when one
exists.  The read of the character before the end index wraps for an
end index of zero (Python index -1). -/
def snapEnd (ref : List Char) (ce : Nat) : Option Nat :=
  if ce < ref.length then
    match pyGet ref ((ce : Int) - 1) with
    | none => none
    | some c =>
        if c ≠ ' ' then
          match pyFindFrom ref ' ' ce with
          | some q => some q
          | none => some ce
        else some ce
  else some ce

/-- Word-boundary snapping of source lines 84-95. -/
def snapBoundaries (ref : List Char) (cs ce : Nat) : Option (Nat × Nat) := do
  let cs' ← snapStart ref cs
  let ce' ← snapEnd ref ce
  return (cs', ce')

/-- The empty-result fallback of source lines 101-107: a second
proportional estimate from the cumulative length share among all cues.
The division by total_len for start_char is unguarded in the source
(only proportion carries a total_len > 0 guard), so total_len = 0 would
raise there: None here.  The slice subtitles[:index - 1] uses the index
field of the cue, with Python negative-slice semantics. -/
def cueFallback (subsAll : List Cue) (ref : List Char) (sub : Cue) :
    Option (List Char) :=
  let total_len := (subsAll.map (fun s => s.text.length)).sum
  if total_len = 0 then none
  else
    let cum := ((pySliceTo subsAll ((sub.index : Int) - 1)).map
      (fun s => s.text.length)).sum
    let start_char := ref.length * cum / total_len
    let char_count := ref.length * sub.text.length / total_len
    some (pyStrip (pySlice ref start_char (start_char + char_count)))

/-- The per-cue body of the loop of source lines 54-114. -/
def correctCue (subsAll : List Cue) (pm : List (Nat × Nat)) (lenOrig : Nat)
    (ref : List Char) (sub : Cue) (original_pos : Nat) : Option Cue := do
  let sub_end := original_pos + sub.text.length
  let sp := cueSpan pm lenOrig ref.length original_pos sub_end
  let snapped ← snapBoundaries ref sp.1 sp.2
  let corrected := pyStrip (pySlice ref snapped.1 snapped.2)
  let finalText ←
    if corrected = [] ∧ sub.text ≠ [] then cueFallback subsAll ref sub
    else some corrected
  return { index := sub.index, timestamp := sub.timestamp, text := finalText }

/-- The cue loop of source lines 54-117, advancing the original_pos
cursor past the cue text and the joining space. -/
def alignLoop (subsAll : List Cue) (pm : List (Nat × Nat)) (lenOrig : Nat)
    (ref : List Char) : List Cue → Nat → Option (List Cue)
  | [], _ => some []
  | sub :: rest, original_pos => do
      let c ← correctCue subsAll pm lenOrig ref sub original_pos
      let others ← alignLoop subsAll pm lenOrig ref rest
        (original_pos + sub.text.length + 1)
      return c :: others

/-- align_text_to_subtitles (source lines 31-119), in Option to model
the partiality of raw indexing and division; alignChecked_isSome shows
the failure cases are unreachable. -/
def alignChecked (subtitles : List Cue) (correct_text : List Char) :
    Option (List Cue) :=
  let original_text := List.intercalate [' '] (subtitles.map Cue.text)
  alignLoop subtitles (buildPositionMap original_text correct_text)
    original_text.length correct_text subtitles 0

/-- The total reading of align_text_to_subtitles. -/
def align_text_to_subtitles (subtitles : List Cue) (correct_text : List Char) :
    List Cue :=
  (alignChecked subtitles correct_text).getD []

/-- The position in the concatenated original text where the text of cue
number k starts (each earlier cue advances the cursor by its length plus
the joining space). -/
def cueStartPos (subtitles : List Cue) (k : Nat) : Nat :=
  (((subtitles.take k).map (fun s => s.text.length + 1))).sum

/-- out is a contiguous substring of s, trimmed. -/
def IsTrimmedSubstring (out s : List Char) : Prop :=
  ∃ i j, out = pyStrip (pySlice s i j)

/-- Modelled from the spec (section 4.2 (b), missing from the source,
which truncates): the rounding form of the fallback formula,
correctOffset = round of (originalOffset / totalOriginalLength) times
totalReferenceLength, rounding half up in exact arithmetic (the round of
Python differs only at exact ties, which the uses below avoid). -/
def interpOffsetSpec (off lenOrig lenRef : Nat) : Nat :=
  (2 * (off * lenRef) + lenOrig) / (2 * lenOrig)

/-! ## parse_srt (source lines 7-24)

The source extracts cue blocks with one fixed regular expression,
re.findall of the pattern (with literal pieces spelled out)
digits, whitespace, clock --> clock, whitespace, lazy-any, lookahead of
(blank line, digits, whitespace) or end.  The embedding implements
precisely this pattern as a recursive scanner; the scan tries the
pattern at each position and resumes after every match, as re.findall
does.  No backtracking is needed: the digit run and each whitespace run
are followed by pieces that cannot consume their characters, and the
lazy middle group always completes because the end alternative of the
lookahead accepts at the end of the string.  The dollar anchor matches
at the end and just before a final newline (the Python semantics
without re.MULTILINE). -/

/-- Consume one character per class in turn; None when the input runs
out early or a character misses its class. -/
def matchClasses : List (Char → Bool) → List Char → Option (List Char × List Char)
  | [], s => some ([], s)
  | _ :: _, [] => none
  | cl :: cls, c :: s =>
      if cl c then
        match matchClasses cls s with
        | some (tk, rest) => some (c :: tk, rest)
        | none => none
      else none

/-- Character classes of one clock of the timestamp group: two digits,
colon, two digits, colon, two digits, comma, three digits. -/
def clockClasses : List (Char → Bool) :=
  [pyDigit, pyDigit, (· = ':'), pyDigit, pyDigit, (· = ':'), pyDigit, pyDigit,
   (· = ','), pyDigit, pyDigit, pyDigit]

/-- Character classes of the full timestamp group: clock, the literal
arrow with its spaces, clock. -/
def tsClasses : List (Char → Bool) :=
  clockClasses ++
    ([(· = ' '), (· = '-'), (· = '-'), (· = '>'), (· = ' ')] : List (Char → Bool)) ++
    clockClasses

/-- The lookahead of the pattern at a position: a blank line followed by
a non-empty digit run and one whitespace character, or the end anchor,
which also accepts just before a final newline. -/
def lookaheadHit : List Char → Bool
  | [] => true
  | [c] => c = '\n'
  | c1 :: c2 :: rest =>
      c1 = '\n' && c2 = '\n' && rest.takeWhile pyDigit ≠ [] &&
      (match rest.dropWhile pyDigit with
        | c :: _ => pySpace c
        | [] => false)

/-- The lazy middle group: split at the least position where the
lookahead holds (the end case always holds, so the walk cannot fail). -/
def takeLazy : List Char → List Char × List Char
  | [] => ([], [])
  | c :: rest =>
      if lookaheadHit (c :: rest) then ([], c :: rest)
      else
        let r := takeLazy rest
        (c :: r.1, r.2)

/-- One attempt of the whole pattern at the current position: digit run,
whitespace run, timestamp, whitespace run, lazy text group up to the
lookahead; returns the three groups and the remaining input. -/
def matchBlockAt (s : List Char) :
    Option ((List Char × List Char × List Char) × List Char) :=
  let ds := s.takeWhile pyDigit
  let s1 := s.dropWhile pyDigit
  if ds = [] then none
  else
    let ws1 := s1.takeWhile pySpace
    let s2 := s1.dropWhile pySpace
    if ws1 = [] then none
    else
      match matchClasses tsClasses s2 with
      | none => none
      | some (ts, s3) =>
          let ws2 := s3.takeWhile pySpace
          let s4 := s3.dropWhile pySpace
          if ws2 = [] then none
          else
            let r := takeLazy s4
            some ((ds, ts, r.1), r.2)

/-- The scan of re.findall: try the pattern at every position and resume
after each match.  The first argument bounds the steps structurally;
every step consumes at least one character, so the bound of scanSrt
(length plus one) never cuts the scan. -/
def scanGo : Nat → List Char → List (List Char × List Char × List Char)
  | 0, _ => []
  | fuel + 1, s =>
      match matchBlockAt s with
      | some (tr, rest) => tr :: scanGo fuel rest
      | none =>
          match s with
          | [] => []
          | _ :: t => scanGo fuel t

def scanSrt (content : List Char) : List (List Char × List Char × List Char) :=
  scanGo (content.length + 1) content

/-- parse_srt (source lines 7-24) on file content: find all cue blocks
and build the entries: int of the index digits, the timestamp group,
the stripped text group. -/
def parse_srt (content : List Char) : List Cue :=
  (scanSrt content).map (fun tr => ⟨natOfDigits tr.1, tr.2.1, pyStrip tr.2.2⟩)

/-- The timestamp group matches the pattern exactly and completely. -/
def tsWellFormed (ts : List Char) : Bool :=
  decide (matchClasses tsClasses ts = some (ts, []))

/-- The cue text holds a blank line (two adjacent newlines). -/
def hasBlankLine : List Char → Bool
  | [] => false
  | [_] => false
  | c1 :: c2 :: rest => (c1 = '\n' && c2 = '\n') || hasBlankLine (c2 :: rest)

/-- Hypotheses of the timestamp round trip: a well-formed timestamp, at
least one non-whitespace character in the text, and no blank line in
the text. -/
def goodCue (c : Cue) : Bool :=
  tsWellFormed c.timestamp && c.text.any (fun ch => !pySpace ch) &&
    !hasBlankLine c.text

/-- The concatenation of the formatted blocks of the cues, one blank
line between blocks (format_srt once no cue text is empty). -/
def blockStream (cues : List Cue) : List Char :=
  List.intercalate ['\n'] (cues.map formatBlock)

/-! ## main (source lines 134-149) -/

/-- Outcome of one run of main: the content written to the output file
(None would mean not written) and the process exit status. -/
structure RunResult where
  written : Option (List Char)
  exitCode : Nat
deriving Repr, DecidableEq

/-- main (source lines 134-149) on the contents of the two input files:
parse the subtitles, strip the reference (parse_txt, source lines
26-29), align, format, write the result.  main always writes its output
file and the script exits with status zero whenever both files read
(the only non-zero exit guards the argument count, before main). -/
def mainRun (srtContent txtContent : List Char) : RunResult :=
  let subtitles := parse_srt srtContent
  let correct_text := pyStrip txtContent
  let corrected := align_text_to_subtitles subtitles correct_text
  ⟨some (format_srt corrected), 0⟩

/-! ## transfer_linebreaks (src/transfer_linebreaks.py lines 3-24) -/

/-- Python str.splitlines over the line terminators that can occur
here: newline, carriage return, and the pair counting as one break;
terminators are dropped, and a trailing segment without terminator
still forms a line.  The accumulator holds the current line reversed. -/
def pySplitlinesGo : List Char → List Char → List (List Char)
  | acc, [] => if acc = [] then [] else [acc.reverse]
  | acc, '\x0d' :: '\n' :: rest => acc.reverse :: pySplitlinesGo [] rest
  | acc, '\n' :: rest => acc.reverse :: pySplitlinesGo [] rest
  | acc, '\x0d' :: rest => acc.reverse :: pySplitlinesGo [] rest
  | acc, c :: rest => pySplitlinesGo (c :: acc) rest

def pySplitlines (s : List Char) : List (List Char) :=
  pySplitlinesGo [] s

/-- The loop of transfer_linebreaks (source lines 10-22): strip each
line, skip empty ones, match the line against the rest of the target
text, slice the target from the cursor to cursor + match.b + match.size
(the offsets of the source), append the trimmed slice, and advance the
cursor by the same amount.  Returns the output list and final cursor. -/
def tlGo (to_text : List Char) : List (List Char) → Nat → List (List Char) × Nat
  | [], cur => ([], cur)
  | line :: rest, cur =>
      let line' := pyStrip line
      if line' = [] then tlGo to_text rest cur
      else
        let m := findLongestMatch (to_text.drop cur) line' (b2j line')
          0 (to_text.length - cur) 0 line'.length
        let inc := m.2.1 + m.2.2
        let r := tlGo to_text rest (cur + inc)
        (pyStrip (pySlice to_text cur (cur + inc)) :: r.1, r.2)

/-- transfer_linebreaks (source lines 3-24): split the broken text into
lines and join the matched, trimmed slices of the target with
newlines. -/
def transfer_linebreaks (from_text to_text : List Char) : List Char :=
  List.intercalate ['\n']
    (tlGo to_text (pySplitlines (pyStrip from_text)) 0).1

/-- The lines of a slice chain are trimmed slices of the target taken
at consecutive positions: each line is the trimmed slice from the
cursor to a position at or after it, and the next slice starts exactly
where the previous one ended, so slices never overlap and the cursor
never moves backward. -/
inductive SliceChain (tgt : List Char) : Nat → List (List Char) → Nat → Prop
  | nil (cur : Nat) : SliceChain tgt cur [] cur
  | cons (cur inc : Nat) (rest : List (List Char)) (last : Nat) :
      SliceChain tgt (cur + inc) rest last →
      SliceChain tgt cur (pyStrip (pySlice tgt cur (cur + inc)) :: rest) last

/-- A well-formed timestamp line used by the concrete examples below. -/
def tsA : List Char := "00:00:01,000 --> 00:00:02,000".toList

/-- A second well-formed timestamp line for the concrete examples. -/
def tsB : List Char := "00:00:03,000 --> 00:00:04,000".toList

/-- Concrete cue pair whose texts share no character with the reference
string below, forcing the interpolation fallback. -/
def exFallbackCues : List Cue :=
  [⟨1, tsA, "a".toList⟩, ⟨2, tsB, "b".toList⟩]

/-- Concrete reference string with no character in common with the cue
texts of exFallbackCues. -/
def exFallbackRef : List Char := "xyzxyzxyzx".toList

/-- Concrete single-cue input whose text equals the reference string, so
both span endpoints come from the position map. -/
def exMatchCues : List Cue := [⟨1, tsA, "hello".toList⟩]

/-- Concrete cue pair with well-formed timestamps and non-empty texts
whose first text is a single space. -/
def exWsCues : List Cue :=
  [⟨1, tsA, " ".toList⟩, ⟨2, tsB, "b".toList⟩]

/-- Concrete subtitle file content with no recognizable cue block. -/
def exProse : List Char := "just some prose without cue blocks".toList

/-! ## Lemmas and claim theorems -/

theorem flmInner_inv {alo blo bhi i : Nat} {prev : List (Nat × Nat)}
    (ha : alo ≤ i) (hprev : RowInv alo blo bhi i prev) :
    ∀ (js : List Nat) (newm : List (Nat × Nat)) (best : Nat × Nat × Nat),
      RowInv alo blo bhi (i + 1) newm → BestInv alo blo bhi (i + 1) best →
      RowInv alo blo bhi (i + 1) (flmInner blo bhi prev i js newm best).1 ∧
      BestInv alo blo bhi (i + 1) (flmInner blo bhi prev i js newm best).2
  | [], newm, best, hm, hb => ⟨hm, hb⟩
  | j :: js, newm, best, hm, hb => by
      rw [flmInner]
      by_cases h1 : j < blo
      · simp only [if_pos h1]
        exact flmInner_inv ha hprev js newm best hm hb
      · simp only [if_neg h1]
        by_cases h2 : bhi ≤ j
        · simp only [if_pos h2]
          exact ⟨hm, hb⟩
        · simp only [if_neg h2]
          push_neg at h1 h2
          have hk : (if j = 0 then 0 else j2lenGet prev (j - 1)) + 1 ≤ i + 1 - alo ∧
              (if j = 0 then 0 else j2lenGet prev (j - 1)) + 1 ≤ j + 1 - blo := by
            by_cases hj0 : j = 0
            · simp only [if_pos hj0]
              omega
            · simp only [if_neg hj0]
              unfold j2lenGet
              cases hf : prev.find? (fun p => p.1 == (j - 1)) with
              | none => simp only []; omega
              | some p =>
                  have hmem := List.mem_of_find?_eq_some hf
                  have := hprev p hmem
                  have hkey : p.1 = j - 1 := by
                    have := List.find?_some hf
                    simpa using this
                  simp only []
                  omega
          refine flmInner_inv ha hprev js _ _ ?_ ?_
          · intro p hp
            rcases List.mem_cons.mp hp with hp | hp
            · simp only [hp]
              exact ⟨h1, h2, hk.2, hk.1⟩
            · exact hm p hp
          · by_cases hlt : best.2.2 < (if j = 0 then 0 else j2lenGet prev (j - 1)) + 1
            · simp only [if_pos hlt]
              unfold BestInv
              simp only []
              omega
            · simp only [if_neg hlt]
              exact hb

theorem flmRows_inv {a : List Char} {bj : Char → List Nat} {blo bhi : Nat} :
    ∀ (steps i : Nat) (prev : List (Nat × Nat)) (best : Nat × Nat × Nat) {alo : Nat},
      alo ≤ i → RowInv alo blo bhi i prev → BestInv alo blo bhi i best →
      BestInv alo blo bhi (i + steps) (flmRows a bj blo bhi i steps prev best)
  | 0, i, prev, best, alo, ha, hprev, hbest => by
      simpa [flmRows] using hbest
  | steps + 1, i, prev, best, alo, ha, hprev, hbest => by
      rw [flmRows]
      have hb' : BestInv alo blo bhi (i + 1) best := by
        unfold BestInv at hbest ⊢
        omega
      have h := flmInner_inv ha hprev (bj (a.getD i ' ')) [] best
        (by intro p hp; simp at hp) hb'
      have := @flmRows_inv a bj blo bhi steps (i + 1)
        (flmInner blo bhi prev i (bj (a.getD i ' ')) [] best).1
        (flmInner blo bhi prev i (bj (a.getD i ' ')) [] best).2
        alo (by omega) h.1 h.2
      simpa [Nat.add_assoc, Nat.add_comm 1 steps] using this

theorem extendBack_inv {a b : List Char} {alo blo A B : Nat} :
    ∀ (besti bestj bestsize : Nat),
      alo ≤ besti → blo ≤ bestj → besti + bestsize ≤ A → bestj + bestsize ≤ B →
      alo ≤ (extendBack a b alo blo besti bestj bestsize).1 ∧
      blo ≤ (extendBack a b alo blo besti bestj bestsize).2.1 ∧
      (extendBack a b alo blo besti bestj bestsize).1 +
        (extendBack a b alo blo besti bestj bestsize).2.2 ≤ A ∧
      (extendBack a b alo blo besti bestj bestsize).2.1 +
        (extendBack a b alo blo besti bestj bestsize).2.2 ≤ B
  | 0, bestj, bestsize, h1, h2, h3, h4 => by
      rw [extendBack]
      exact ⟨h1, h2, h3, h4⟩
  | besti + 1, bestj, bestsize, h1, h2, h3, h4 => by
      rw [extendBack]
      by_cases h : alo < besti + 1 ∧ blo < bestj ∧ a.getD besti ' ' = b.getD (bestj - 1) ' '
      · simp only [if_pos h]
        exact extendBack_inv besti (bestj - 1) (bestsize + 1)
          (by omega) (by omega) (by omega) (by omega)
      · simp only [if_neg h]
        exact ⟨h1, h2, h3, h4⟩

theorem extendFwdGo_inv {a b : List Char} {ahi bhi besti bestj : Nat} :
    ∀ (fuel bestsize : Nat),
      besti + bestsize ≤ ahi → bestj + bestsize ≤ bhi →
      besti + extendFwdGo a b ahi bhi besti bestj fuel bestsize ≤ ahi ∧
      bestj + extendFwdGo a b ahi bhi besti bestj fuel bestsize ≤ bhi
  | 0, bestsize, h1, h2 => by
      rw [extendFwdGo]
      exact ⟨h1, h2⟩
  | fuel + 1, bestsize, h1, h2 => by
      rw [extendFwdGo]
      by_cases h : besti + bestsize < ahi ∧ bestj + bestsize < bhi ∧
          a.getD (besti + bestsize) ' ' = b.getD (bestj + bestsize) ' '
      · simp only [if_pos h]
        exact extendFwdGo_inv fuel (bestsize + 1) (by omega) (by omega)
      · simp only [if_neg h]
        exact ⟨h1, h2⟩

/-- The match returned by find_longest_match lies inside the window. -/
theorem findLongestMatch_bounds {a b : List Char} {bj : Char → List Nat}
    {alo ahi blo bhi : Nat} (ha : alo ≤ ahi) (hb : blo ≤ bhi) :
    alo ≤ (findLongestMatch a b bj alo ahi blo bhi).1 ∧
    (findLongestMatch a b bj alo ahi blo bhi).1 +
      (findLongestMatch a b bj alo ahi blo bhi).2.2 ≤ ahi ∧
    blo ≤ (findLongestMatch a b bj alo ahi blo bhi).2.1 ∧
    (findLongestMatch a b bj alo ahi blo bhi).2.1 +
      (findLongestMatch a b bj alo ahi blo bhi).2.2 ≤ bhi := by
  have hcore := @flmRows_inv a bj blo bhi
    (ahi - alo) alo [] (alo, blo, 0) alo (le_refl alo)
    (by intro p hp; simp at hp) (by unfold BestInv; simp; omega)
  rw [show alo + (ahi - alo) = ahi by omega] at hcore
  unfold BestInv at hcore
  set core := flmRows a bj blo bhi alo (ahi - alo) [] (alo, blo, 0) with hc
  have hback := @extendBack_inv a b alo blo ahi bhi core.1 core.2.1 core.2.2
    hcore.1 hcore.2.2.1 (by omega) (by omega)
  set back := extendBack a b alo blo core.1 core.2.1 core.2.2 with hbk
  have hfwd := @extendFwdGo_inv a b ahi bhi back.1 back.2.1
    (ahi - (back.1 + back.2.2)) back.2.2 (by omega) (by omega)
  unfold findLongestMatch extendFwd
  simp only [← hc, ← hbk]
  exact ⟨hback.1, hfwd.1, hback.2.1, hfwd.2⟩

/-- Any recursion bound at least the window width gives the same blocks:
the bound of matchRegions never cuts the recursion. -/
theorem matchRegionsGo_fuel {a b : List Char} {bj : Char → List Nat} :
    ∀ (f1 : Nat) {f2 alo ahi blo bhi : Nat}, ahi - alo ≤ f1 → ahi - alo ≤ f2 →
      alo ≤ ahi → blo ≤ bhi →
      matchRegionsGo a b bj f1 alo ahi blo bhi =
        matchRegionsGo a b bj f2 alo ahi blo bhi := by
  intro f1
  induction f1 with
  | zero =>
      intro f2 alo ahi blo bhi hf1 hf2 ha hb
      have hbd := @findLongestMatch_bounds a b bj alo ahi blo bhi ha hb
      cases f2 with
      | zero => rfl
      | succ f2 =>
          have hk : (findLongestMatch a b bj alo ahi blo bhi).2.2 = 0 := by omega
          simp [matchRegionsGo, hk]
  | succ f1 ih =>
      intro f2 alo ahi blo bhi hf1 hf2 ha hb
      have hbd := @findLongestMatch_bounds a b bj alo ahi blo bhi ha hb
      cases f2 with
      | zero =>
          have hk : (findLongestMatch a b bj alo ahi blo bhi).2.2 = 0 := by omega
          simp [matchRegionsGo, hk]
      | succ f2 =>
          show matchRegionsGo a b bj (f1 + 1) alo ahi blo bhi =
            matchRegionsGo a b bj (f2 + 1) alo ahi blo bhi
          rw [matchRegionsGo, matchRegionsGo]
          set m := findLongestMatch a b bj alo ahi blo bhi with hm
          by_cases hk : m.2.2 = 0
          · simp [hk]
          · simp only [if_neg hk]
            have hL : (if alo < m.1 ∧ blo < m.2.1 then
                  matchRegionsGo a b bj f1 alo m.1 blo m.2.1 else []) =
                (if alo < m.1 ∧ blo < m.2.1 then
                  matchRegionsGo a b bj f2 alo m.1 blo m.2.1 else []) := by
              by_cases h2 : alo < m.1 ∧ blo < m.2.1
              · rw [if_pos h2, if_pos h2]
                exact ih (by omega) (by omega) (le_of_lt h2.1) (le_of_lt h2.2)
              · rw [if_neg h2, if_neg h2]
            have hR : (if m.1 + m.2.2 < ahi ∧ m.2.1 + m.2.2 < bhi then
                  matchRegionsGo a b bj f1 (m.1 + m.2.2) ahi (m.2.1 + m.2.2) bhi else []) =
                (if m.1 + m.2.2 < ahi ∧ m.2.1 + m.2.2 < bhi then
                  matchRegionsGo a b bj f2 (m.1 + m.2.2) ahi (m.2.1 + m.2.2) bhi else []) := by
              by_cases h3 : m.1 + m.2.2 < ahi ∧ m.2.1 + m.2.2 < bhi
              · rw [if_pos h3, if_pos h3]
                exact ih (by omega) (by omega) (le_of_lt h3.1) (le_of_lt h3.2)
              · rw [if_neg h3, if_neg h3]
            rw [hL, hR]

theorem matchRegionsGo_bounds {a b : List Char} {bj : Char → List Nat} :
    ∀ (fuel alo ahi blo bhi : Nat), alo ≤ ahi → blo ≤ bhi →
      ∀ blk ∈ matchRegionsGo a b bj fuel alo ahi blo bhi,
        alo ≤ blk.1 ∧ blk.1 + blk.2.2 ≤ ahi ∧
        blo ≤ blk.2.1 ∧ blk.2.1 + blk.2.2 ≤ bhi := by
  intro fuel
  induction fuel with
  | zero =>
      intro alo ahi blo bhi ha hb blk hmem
      simp [matchRegionsGo] at hmem
  | succ fuel ih =>
      intro alo ahi blo bhi ha hb blk hmem
      have hbd := @findLongestMatch_bounds a b bj alo ahi blo bhi ha hb
      rw [matchRegionsGo] at hmem
      by_cases hk : (findLongestMatch a b bj alo ahi blo bhi).2.2 = 0
      · simp [hk] at hmem
      · simp only [if_neg hk] at hmem
        rcases List.mem_append.mp hmem with hm | hm
        · by_cases h2 : alo < (findLongestMatch a b bj alo ahi blo bhi).1 ∧
              blo < (findLongestMatch a b bj alo ahi blo bhi).2.1
          · rw [if_pos h2] at hm
            have := ih alo (findLongestMatch a b bj alo ahi blo bhi).1
              blo (findLongestMatch a b bj alo ahi blo bhi).2.1
              (le_of_lt h2.1) (le_of_lt h2.2) blk hm
            omega
          · rw [if_neg h2] at hm
            simp at hm
        · rcases List.mem_cons.mp hm with hm | hm
          · subst hm; omega
          · by_cases h3 : (findLongestMatch a b bj alo ahi blo bhi).1 +
                  (findLongestMatch a b bj alo ahi blo bhi).2.2 < ahi ∧
                (findLongestMatch a b bj alo ahi blo bhi).2.1 +
                  (findLongestMatch a b bj alo ahi blo bhi).2.2 < bhi
            · rw [if_pos h3] at hm
              have := ih ((findLongestMatch a b bj alo ahi blo bhi).1 +
                  (findLongestMatch a b bj alo ahi blo bhi).2.2) ahi
                ((findLongestMatch a b bj alo ahi blo bhi).2.1 +
                  (findLongestMatch a b bj alo ahi blo bhi).2.2) bhi
                (le_of_lt h3.1) (le_of_lt h3.2) blk hm
              omega
            · rw [if_neg h3] at hm
              simp at hm

theorem mergeAdjacent_bounds {la lb : Nat} :
    ∀ (l : List (Nat × Nat × Nat)) (acc : Nat × Nat × Nat),
      acc.1 + acc.2.2 ≤ la → acc.2.1 + acc.2.2 ≤ lb →
      (∀ blk ∈ l, blk.1 + blk.2.2 ≤ la ∧ blk.2.1 + blk.2.2 ≤ lb) →
      ∀ blk ∈ mergeAdjacent acc l, blk.1 + blk.2.2 ≤ la ∧ blk.2.1 + blk.2.2 ≤ lb
  | [], (i1, j1, k1), h1, h2, _, blk, hmem => by
      rw [mergeAdjacent] at hmem
      split at hmem
      · simp at hmem
        simp [hmem]
        exact ⟨h1, h2⟩
      · simp at hmem
  | (i2, j2, k2) :: rest, (i1, j1, k1), h1, h2, hl, blk, hmem => by
      have hhead := hl (i2, j2, k2) (List.mem_cons_self _ _)
      have hrest : ∀ blk ∈ rest, blk.1 + blk.2.2 ≤ la ∧ blk.2.1 + blk.2.2 ≤ lb :=
        fun blk h => hl blk (List.mem_cons_of_mem _ h)
      rw [mergeAdjacent] at hmem
      split at hmem
      · exact mergeAdjacent_bounds rest _ (by simp at h1 hhead ⊢; omega)
          (by simp at h2 hhead ⊢; omega) hrest blk hmem
      · split at hmem
        · rcases List.mem_cons.mp hmem with hm | hm
          · simp [hm]
            exact ⟨h1, h2⟩
          · exact mergeAdjacent_bounds rest _ (by simp at hhead ⊢; omega)
              (by simp at hhead ⊢; omega) hrest blk hm
        · exact mergeAdjacent_bounds rest _ (by simp at hhead ⊢; omega)
            (by simp at hhead ⊢; omega) hrest blk hmem

/-- Every matching block (sentinel included) lies inside both strings. -/
theorem getMatchingBlocks_bounds {a b : List Char} :
    ∀ blk ∈ getMatchingBlocks a b,
      blk.1 + blk.2.2 ≤ a.length ∧ blk.2.1 + blk.2.2 ≤ b.length := by
  intro blk hmem
  unfold getMatchingBlocks at hmem
  rcases List.mem_append.mp hmem with h | h
  · refine mergeAdjacent_bounds _ _ (by simp) (by simp) ?_ blk h
    intro blk2 h2
    have h3 := (List.perm_insertionSort
      (fun x y => tripleLe x y = true) _).subset h2
    have := matchRegionsGo_bounds a.length 0 a.length 0 b.length
      (Nat.zero_le _) (Nat.zero_le _) blk2 (by simpa [matchRegions] using h3)
    omega
  · simp at h
    simp [h]

theorem srtContentList_eq (subs : List Cue) :
    srtContentList subs = (subs.filter fun s => s.text ≠ []).map formatBlock := by
  induction subs with
  | nil => rfl
  | cons s rest ih =>
      by_cases h : s.text = []
      · simp [srtContentList, h, List.filter_cons, ih]
      · simp [srtContentList, h, List.filter_cons, ih]

/-- C4: format_srt emits one block (index, newline, timestamp, newline,
text, newline) per cue with non-empty text, joined by blank lines, in the
input order, silently omitting every cue whose text is empty; hence the
emitted cue count is at most the input count and the emitted cues keep
the input order of index values. -/
theorem C4_format_srt_blocks_in_order (subs : List Cue) :
    format_srt subs =
      List.intercalate ['\n'] (((subs.filter fun s => s.text ≠ []).map formatBlock)) ∧
    ((subs.filter fun s => s.text ≠ []).map formatBlock).length ≤ subs.length ∧
    ((subs.filter fun s => s.text ≠ []).map Cue.index).Sublist (subs.map Cue.index) := by
  refine ⟨by rw [format_srt, srtContentList_eq], ?_, ?_⟩
  · simpa using List.length_filter_le (fun s => s.text ≠ []) subs
  · exact (List.filter_sublist subs).map Cue.index

theorem foldl_cons_mem {α : Type} :
    ∀ (l acc : List α) (x : α),
      x ∈ l.foldl (fun m e => e :: m) acc ↔ x ∈ l ∨ x ∈ acc
  | [], acc, x => by simp
  | a :: l, acc, x => by
      rw [List.foldl_cons, foldl_cons_mem l (a :: acc) x]
      simp [List.mem_cons]
      tauto

theorem pmFoldl_lt {lb : Nat} :
    ∀ (blocks : List (Nat × Nat × Nat)) (acc : List (Nat × Nat)),
      (∀ p ∈ acc, p.2 < lb) →
      (∀ blk ∈ blocks, blk.2.1 + blk.2.2 ≤ lb) →
      ∀ p ∈ blocks.foldl
        (fun pm blk => (expandBlock blk).foldl (fun m e => e :: m) pm) acc,
        p.2 < lb
  | [], acc, hacc, _, p, hp => hacc p (by simpa using hp)
  | blk :: blocks, acc, hacc, hbl, p, hp => by
      rw [List.foldl_cons] at hp
      refine pmFoldl_lt blocks _ ?_
        (fun b h => hbl b (List.mem_cons_of_mem _ h)) p hp
      intro q hq
      rcases (foldl_cons_mem _ _ _).mp hq with h | h
      · have hb := hbl blk (List.mem_cons_self _ _)
        unfold expandBlock at h
        simp at h
        obtain ⟨i, hi, rfl⟩ := h
        simp
        omega
      · exact hacc q h

theorem buildPositionMap_lt {a b : List Char} :
    ∀ p ∈ buildPositionMap a b, p.2 < b.length := by
  intro p hp
  exact pmFoldl_lt (getMatchingBlocks a b) [] (by simp)
    (fun blk h => (getMatchingBlocks_bounds blk h).2) p hp

theorem pmGet_mem_lt {pm : List (Nat × Nat)} {lb k v : Nat}
    (hpm : ∀ p ∈ pm, p.2 < lb) (h : pmGet pm k = some v) : v < lb := by
  unfold pmGet at h
  cases hf : pm.find? (fun p => p.1 == k) with
  | none => rw [hf] at h; simp at h
  | some p =>
      rw [hf] at h
      simp at h
      exact h ▸ hpm p (List.mem_of_find?_eq_some hf)

theorem backScan_le {pm : List (Nat × Nat)} {lb lo : Nat}
    (hpm : ∀ p ∈ pm, p.2 < lb) :
    ∀ {n ce : Nat}, backScan pm lo n = some ce → ce ≤ lb := by
  intro n
  induction n with
  | zero =>
      intro ce h
      unfold backScan at h
      cases hg : pmGet pm lo with
      | none => rw [hg] at h; simp at h
      | some v =>
          rw [hg] at h
          simp at h
          have := pmGet_mem_lt hpm hg
          omega
  | succ n ih =>
      intro ce h
      unfold backScan at h
      cases hg : pmGet pm (lo + n + 1) with
      | none => rw [hg] at h; exact ih h
      | some v =>
          rw [hg] at h
          simp at h
          have := pmGet_mem_lt hpm hg
          omega

theorem interpOffset_le (off lenOrig lenRef : Nat) :
    interpOffset off lenOrig lenRef ≤ lenRef := by
  unfold interpOffset
  split
  · exact le_refl _
  · rename_i h
    calc off * lenRef / lenOrig ≤ lenOrig * lenRef / lenOrig :=
          Nat.div_le_div_right (Nat.mul_le_mul_right _ (by omega))
      _ = lenRef := Nat.mul_div_cancel_left _ (by omega)

theorem cueSpan_fst_le {pm : List (Nat × Nat)} {lenOrig lenRef ss se : Nat}
    (hpm : ∀ p ∈ pm, p.2 < lenRef) :
    (cueSpan pm lenOrig lenRef ss se).1 ≤ lenRef := by
  unfold cueSpan
  cases h1 : pmGet pm ss with
  | none =>
      simp only []
      exact interpOffset_le _ _ _
  | some cs =>
      cases h2 : backScan pm ss (se - ss) with
      | none =>
          simp only []
          exact interpOffset_le _ _ _
      | some ce =>
          simp only []
          exact le_of_lt (pmGet_mem_lt hpm h1)

theorem pyGet_isSome {s : List Char} {i : Int} (h1 : -(s.length : Int) ≤ i)
    (h2 : i < (s.length : Int)) : (pyGet s i).isSome := by
  unfold pyGet
  by_cases h : 0 ≤ i
  · rw [if_pos h]
    have hlt : i.toNat < s.length := by omega
    rw [List.get?_eq_get hlt]
    rfl
  · rw [if_neg h]
    have hle : i.natAbs ≤ s.length := by omega
    rw [if_pos hle]
    have hlt : s.length - i.natAbs < s.length := by omega
    rw [List.get?_eq_get hlt]
    rfl

theorem snapStart_isSome {ref : List Char} {cs : Nat} (hcs : cs ≤ ref.length) :
    (snapStart ref cs).isSome := by
  unfold snapStart
  by_cases h : 0 < cs
  · rw [if_pos h]
    obtain ⟨c, hc⟩ := Option.isSome_iff_exists.mp
      (pyGet_isSome (s := ref) (i := (cs : Int) - 1) (by omega) (by omega))
    rw [hc]
    by_cases hsp : c = ' '
    · simp [hsp]
    · cases h2 : pyRfindBefore ref ' ' cs <;> simp [hsp, h2]
  · rw [if_neg h]
    rfl

theorem snapEnd_isSome {ref : List Char} (ce : Nat) :
    (snapEnd ref ce).isSome := by
  unfold snapEnd
  by_cases h : ce < ref.length
  · rw [if_pos h]
    obtain ⟨c, hc⟩ := Option.isSome_iff_exists.mp
      (pyGet_isSome (s := ref) (i := (ce : Int) - 1) (by omega) (by omega))
    rw [hc]
    by_cases hsp : c = ' '
    · simp [hsp]
    · cases h2 : pyFindFrom ref ' ' ce <;> simp [hsp, h2]
  · rw [if_neg h]
    rfl

theorem snapBoundaries_eq_some {ref : List Char} {cs ce : Nat}
    (hcs : cs ≤ ref.length) :
    ∃ r, snapBoundaries ref cs ce = some r := by
  obtain ⟨cs', h1⟩ := Option.isSome_iff_exists.mp (snapStart_isSome hcs)
  obtain ⟨ce', h2⟩ := Option.isSome_iff_exists.mp (@snapEnd_isSome ref ce)
  exact ⟨(cs', ce'), by simp [snapBoundaries, h1, h2]⟩

theorem correctCue_spec {subsAll : List Cue} {pm : List (Nat × Nat)}
    {lenOrig : Nat} {ref : List Char} {sub : Cue} {pos : Nat}
    (hpm : ∀ p ∈ pm, p.2 < ref.length) (hsub : sub ∈ subsAll) :
    ∃ c, correctCue subsAll pm lenOrig ref sub pos = some c ∧
      c.index = sub.index ∧ c.timestamp = sub.timestamp ∧
      ∃ i j, c.text = pyStrip (pySlice ref i j) := by
  obtain ⟨sn, hsn⟩ := @snapBoundaries_eq_some ref
    (cueSpan pm lenOrig ref.length pos (pos + sub.text.length)).1
    (cueSpan pm lenOrig ref.length pos (pos + sub.text.length)).2
    (@cueSpan_fst_le pm lenOrig ref.length pos (pos + sub.text.length) hpm)
  by_cases hfb : pyStrip (pySlice ref sn.1 sn.2) = [] ∧ sub.text ≠ []
  · have htot : (subsAll.map (fun s => s.text.length)).sum ≠ 0 := by
      have hmem : sub.text.length ∈ subsAll.map (fun s => s.text.length) :=
        List.mem_map_of_mem _ hsub
      have hle := List.single_le_sum (fun x _ => Nat.zero_le x) _ hmem
      have hpos : 0 < sub.text.length := by
        cases hsub2 : sub.text with
        | nil => exact absurd hsub2 hfb.2
        | cons c t => simp
      omega
    have hcf : ∃ ft, cueFallback subsAll ref sub = some ft ∧
        ∃ i j, ft = pyStrip (pySlice ref i j) := by
      simp only [cueFallback]
      rw [if_neg htot]
      exact ⟨_, rfl, _, _, rfl⟩
    obtain ⟨ft, hft, hshape⟩ := hcf
    refine ⟨⟨sub.index, sub.timestamp, ft⟩, ?_, rfl, rfl, hshape⟩
    simp only [correctCue, hsn, Option.bind_eq_bind, Option.some_bind,
      if_pos hfb, hft]
    rfl
  · refine ⟨⟨sub.index, sub.timestamp, pyStrip (pySlice ref sn.1 sn.2)⟩,
      ?_, rfl, rfl, ⟨sn.1, sn.2, rfl⟩⟩
    simp only [correctCue, hsn, Option.bind_eq_bind, Option.some_bind,
      if_neg hfb]
    rfl

theorem alignLoop_spec {subsAll : List Cue} {pm : List (Nat × Nat)}
    {lenOrig : Nat} {ref : List Char}
    (hpm : ∀ p ∈ pm, p.2 < ref.length) :
    ∀ (rest : List Cue) (pos : Nat), (∀ s ∈ rest, s ∈ subsAll) →
      ∃ out, alignLoop subsAll pm lenOrig ref rest pos = some out ∧
        out.map Cue.index = rest.map Cue.index ∧
        out.map Cue.timestamp = rest.map Cue.timestamp ∧
        ∀ c ∈ out, ∃ i j, c.text = pyStrip (pySlice ref i j)
  | [], pos, _ => ⟨[], rfl, rfl, rfl, by simp⟩
  | sub :: rest, pos, hmem => by
      obtain ⟨c, hc, hidx, hts, hshape⟩ :=
        @correctCue_spec subsAll pm lenOrig ref sub pos hpm
          (hmem sub (List.mem_cons_self _ _))
      obtain ⟨out, hout, hoidx, hots, hoshape⟩ :=
        @alignLoop_spec subsAll pm lenOrig ref hpm rest (pos + sub.text.length + 1)
          (fun s h => hmem s (List.mem_cons_of_mem _ h))
      refine ⟨c :: out, ?_, ?_, ?_, ?_⟩
      · simp [alignLoop, hc, hout]
      · simp [hidx, hoidx]
      · simp [hts, hots]
      · intro x hx
        rcases List.mem_cons.mp hx with h | h
        · exact h ▸ hshape
        · exact hoshape x h

theorem alignChecked_spec (subtitles : List Cue) (correct_text : List Char) :
    ∃ out, alignChecked subtitles correct_text = some out ∧
      out.map Cue.index = subtitles.map Cue.index ∧
      out.map Cue.timestamp = subtitles.map Cue.timestamp ∧
      ∀ c ∈ out, ∃ i j, c.text = pyStrip (pySlice correct_text i j) :=
  alignLoop_spec buildPositionMap_lt subtitles 0 (fun _ h => h)

/-- C1: align_text_to_subtitles returns one output cue per input cue, in
the input order, with the index and the timestamp fields of each input
cue copied unchanged; only the text field is replaced. -/
theorem C1_align_preserves_structure (subtitles : List Cue)
    (correct_text : List Char) :
    (align_text_to_subtitles subtitles correct_text).length = subtitles.length ∧
    (align_text_to_subtitles subtitles correct_text).map Cue.index =
      subtitles.map Cue.index ∧
    (align_text_to_subtitles subtitles correct_text).map Cue.timestamp =
      subtitles.map Cue.timestamp := by
  obtain ⟨out, hout, hidx, hts, _⟩ := alignChecked_spec subtitles correct_text
  have halign : align_text_to_subtitles subtitles correct_text = out := by
    simp [align_text_to_subtitles, hout]
  refine ⟨?_, by rw [halign, hidx], by rw [halign, hts]⟩
  rw [halign]
  have := congrArg List.length hidx
  simpa using this

/-- C7: the aligner is total on every input (the Option-modelled
alignChecked never fails: every indexing is in range and every division
guarded or unreachable at zero), and every interpolated offset lies
within [0, len(reference)] even when the reference is shorter than the
concatenated original text. -/
theorem C7_align_total_offsets_in_range :
    (∀ (subtitles : List Cue) (correct_text : List Char),
      (alignChecked subtitles correct_text).isSome) ∧
    (∀ off lenOrig lenRef : Nat, interpOffset off lenOrig lenRef ≤ lenRef) := by
  constructor
  · intro subtitles correct_text
    obtain ⟨out, hout, _⟩ := alignChecked_spec subtitles correct_text
    simp [hout]
  · exact interpOffset_le

/-- C2: when both endpoints of the span of cue number k are obtained
from the position map (the direct lookup and the backward scan both
succeed, so no interpolation fallback runs), the text assigned to that
cue is a trimmed contiguous substring of the reference text. -/
theorem C2_mapped_span_trimmed_substring (subtitles : List Cue)
    (correct_text : List Char) (k : Nat) (hk : k < subtitles.length)
    (hstart : pmGet (buildPositionMap
        (List.intercalate [' '] (subtitles.map Cue.text)) correct_text)
        (cueStartPos subtitles k) ≠ none)
    (hend : backScan (buildPositionMap
        (List.intercalate [' '] (subtitles.map Cue.text)) correct_text)
        (cueStartPos subtitles k)
        (subtitles.get ⟨k, hk⟩).text.length ≠ none) :
    ∃ c, (align_text_to_subtitles subtitles correct_text).get? k = some c ∧
      IsTrimmedSubstring c.text correct_text := by
  obtain ⟨out, hout, hidx, _, hshape⟩ := alignChecked_spec subtitles correct_text
  have halign : align_text_to_subtitles subtitles correct_text = out := by
    simp [align_text_to_subtitles, hout]
  have hlen : out.length = subtitles.length := by
    have := congrArg List.length hidx
    simpa using this
  have hklen : k < out.length := by omega
  refine ⟨out.get ⟨k, hklen⟩, ?_, ?_⟩
  · rw [halign]
    exact List.get?_eq_get hklen
  · exact hshape _ (List.get_mem out k hklen)

/-- C2 witness: on a single cue whose text equals the reference, both
endpoints are mapped and the output text is a trimmed substring. -/
theorem C2_witness :
    (pmGet (buildPositionMap
        (List.intercalate [' '] (exMatchCues.map Cue.text)) "hello".toList)
        (cueStartPos exMatchCues 0) ≠ none) ∧
    ∃ c, (align_text_to_subtitles exMatchCues "hello".toList).get? 0 = some c ∧
      IsTrimmedSubstring c.text "hello".toList :=
  ⟨by decide,
   C2_mapped_span_trimmed_substring exMatchCues "hello".toList 0 (by decide)
     (by decide) (by decide)⟩

/-- C5 (amended): whenever either endpoint of a cue span is absent from
the position map, the aligner recomputes both offsets by linear
interpolation with int() truncation, that is floor division, not
rounding: correctOffset = floor((originalOffset * totalReferenceLength)
/ totalOriginalLength), with the ratio forced to 1.0 for offsets at or
past the end of the concatenated original text. -/
theorem C5_interpolation_truncates (pm : List (Nat × Nat))
    (lenOrig lenRef ss se : Nat)
    (h : pmGet pm ss = none ∨ backScan pm ss (se - ss) = none) :
    cueSpan pm lenOrig lenRef ss se =
      ((if lenOrig ≤ ss then lenRef else ss * lenRef / lenOrig),
       (if lenOrig ≤ se then lenRef else se * lenRef / lenOrig)) := by
  unfold cueSpan interpOffset
  rcases h with h | h
  · rw [h]
  · cases h1 : pmGet pm ss with
    | none => rfl
    | some cs => rw [h]

/-- C5 witness: a concrete unmapped lookup where the truncated
interpolation applies. -/
theorem C5_witness :
    cueSpan [] 3 10 2 3 = (6, 10) := by
  have := C5_interpolation_truncates [] 3 10 2 3 (Or.inl (by decide))
  simpa using this

/-- C5 counterexample: on exFallbackCues and exFallbackRef the position
map is empty; for the second cue (span 2 to 3 of the concatenated
original text of length 3, reference length 10) the aligner derives
offset 6 = int((2/3)*10) while the claimed formula rounds to 7; the
aligner output slice "xyzx" therefore differs from the slice "yzx" the
rounded offset would give. -/
theorem C5_counterexample :
    pmGet (buildPositionMap
      (List.intercalate [' '] (exFallbackCues.map Cue.text)) exFallbackRef) 2
      = none ∧
    cueSpan (buildPositionMap
      (List.intercalate [' '] (exFallbackCues.map Cue.text)) exFallbackRef)
      3 10 2 3 = (6, 10) ∧
    interpOffsetSpec 2 3 10 = 7 ∧ (6 : Nat) ≠ 7 ∧
    align_text_to_subtitles exFallbackCues exFallbackRef =
      [⟨1, tsA, "xyz".toList⟩, ⟨2, tsB, "xyzx".toList⟩] ∧
    pyStrip (pySlice exFallbackRef 7 10) ≠ "xyzx".toList := by
  refine ⟨by decide, by decide, by decide, by decide, by decide, by decide⟩

theorem align_empty_ref_text (subs : List Cue) :
    ∀ c ∈ align_text_to_subtitles subs [], c.text = [] := by
  intro c hc
  obtain ⟨out, hout, _, _, hshape⟩ := alignChecked_spec subs []
  have halign : align_text_to_subtitles subs [] = out := by
    simp [align_text_to_subtitles, hout]
  rw [halign] at hc
  obtain ⟨i, j, hij⟩ := hshape c hc
  simpa [pySlice, pyStrip] using hij

/-- C8 (amended): zero parsed cues propagate as an empty output through
alignment and formatting without any failure, and an empty reference
text yields an empty span for every cue; however main still writes the
(empty) output file and finishes with exit status zero, with no failure
report. -/
theorem C8_empty_results_propagate (content txt : List Char)
    (h : parse_srt content = []) :
    align_text_to_subtitles (parse_srt content) (pyStrip txt) = [] ∧
    format_srt (align_text_to_subtitles (parse_srt content) (pyStrip txt)) = [] ∧
    mainRun content txt = ⟨some [], 0⟩ ∧
    (∀ (subs : List Cue), ∀ c ∈ align_text_to_subtitles subs [], c.text = []) := by
  rw [h]
  exact ⟨rfl, rfl, by simp [mainRun, h]; rfl, align_empty_ref_text⟩

/-- C8 witness: the empty input file parses to zero cues and main then
writes an empty output with exit status zero. -/
theorem C8_witness :
    parse_srt [] = [] ∧ mainRun [] [] = ⟨some [], 0⟩ :=
  ⟨rfl, (C8_empty_results_propagate [] [] rfl).2.2.1⟩

/-- C8 counterexample: on zero parsed cues the orchestrator does not
exit non-zero: it writes the empty output and exits with status zero,
against the reportable-failure part of the claim. -/
theorem C8_counterexample :
    parse_srt [] = [] ∧ (mainRun [] []).exitCode = 0 ∧
    (mainRun [] []).written = some [] := by
  exact ⟨rfl, rfl, rfl⟩

/-- C9 (amended): when the subtitle input contains no recognizable cue
block, parse_srt returns the empty list without raising, and main still
writes the (empty) output file and completes with exit status zero; no
error naming the offending file is surfaced. -/
theorem C9_parse_failure_still_writes (content reference : List Char)
    (h : parse_srt content = []) :
    (mainRun content reference).written = some [] ∧
    (mainRun content reference).exitCode = 0 := by
  simp [mainRun, h]
  rfl

/-- C9 witness: prose input parses to zero cues, main writes anyway. -/
theorem C9_witness :
    parse_srt exProse = [] ∧
    (mainRun exProse "reference".toList).written = some [] ∧
    (mainRun exProse "reference".toList).exitCode = 0 := by
  refine ⟨by decide, ?_⟩
  exact C9_parse_failure_still_writes exProse "reference".toList (by decide)

/-- C9 counterexample: on a prose input with no cue block, the output
file is written (an empty file), against the output-file-not-written
part of the claim, and no error is surfaced (parse returns []). -/
theorem C9_counterexample :
    parse_srt exProse = [] ∧
    (mainRun exProse "reference".toList).written ≠ none := by decide

/-- C3 counterexample: two cues with well-formed timestamps and
non-empty texts, the first text a single space.  After formatting, the
whitespace run after the first timestamp absorbs the blank-line
separator, the lazy text group then swallows the second block, and
parsing returns one cue instead of two. -/
theorem C3_counterexample :
    exWsCues = [⟨1, tsA, " ".toList⟩, ⟨2, tsB, "b".toList⟩] ∧
    tsWellFormed tsA = true ∧ tsWellFormed tsB = true ∧
    (" ".toList : List Char) ≠ [] ∧ ("b".toList : List Char) ≠ [] ∧
    (parse_srt (format_srt exWsCues)).length = 1 ∧
    exWsCues.length = 2 := by decide

theorem digitChar_isDigit (k : Nat) : pyDigit (digitChar k) = true := by
  unfold digitChar
  split <;> decide

theorem natDigits_ne_nil (n : Nat) : natDigits n ≠ [] := by
  unfold natDigits natDigitsGo
  split
  · simp
  · simp

theorem natDigitsGo_digits :
    ∀ (fuel n : Nat), ∀ c ∈ natDigitsGo fuel n, pyDigit c = true
  | 0, n, c, hc => by simp [natDigitsGo] at hc
  | fuel + 1, n, c, hc => by
      rw [natDigitsGo] at hc
      split at hc
      · simp at hc
        simp [hc, digitChar_isDigit]
      · rcases List.mem_append.mp hc with h | h
        · exact natDigitsGo_digits fuel (n / 10) c h
        · simp at h
          simp [h, digitChar_isDigit]

theorem natDigits_digits (n : Nat) : ∀ c ∈ natDigits n, pyDigit c = true :=
  natDigitsGo_digits (n + 1) n

theorem pyDigit_not_space {c : Char} (h : pyDigit c = true) : pySpace c = false := by
  unfold pyDigit at h
  unfold pySpace
  simp only [Bool.and_eq_true, decide_eq_true_eq] at h
  simp only [Bool.or_eq_false_iff, decide_eq_false_iff_not]
  refine ⟨⟨⟨⟨⟨?_, ?_⟩, ?_⟩, ?_⟩, ?_⟩, ?_⟩ <;>
    (rintro rfl; revert h; decide)

theorem takeWhile_append_all {p : Char → Bool} :
    ∀ {xs : List Char} (ys : List Char), (∀ x ∈ xs, p x = true) →
      (xs ++ ys).takeWhile p = xs ++ ys.takeWhile p
  | [], ys, _ => rfl
  | x :: xs, ys, h => by
      rw [List.cons_append, List.takeWhile_cons, h x (List.mem_cons_self _ _)]
      simp [takeWhile_append_all ys (fun y hy => h y (List.mem_cons_of_mem _ hy))]

theorem dropWhile_append_all {p : Char → Bool} :
    ∀ {xs : List Char} (ys : List Char), (∀ x ∈ xs, p x = true) →
      (xs ++ ys).dropWhile p = ys.dropWhile p
  | [], ys, _ => rfl
  | x :: xs, ys, h => by
      rw [List.cons_append, List.dropWhile_cons, h x (List.mem_cons_self _ _)]
      simp [dropWhile_append_all ys (fun y hy => h y (List.mem_cons_of_mem _ hy))]

theorem dropWhile_head_false {p : Char → Bool} :
    ∀ {l : List Char} {d : Char} {t : List Char},
      l.dropWhile p = d :: t → p d = false
  | [], d, t, h => by simp at h
  | x :: l, d, t, h => by
      rw [List.dropWhile_cons] at h
      by_cases hx : p x = true
      · rw [hx] at h
        simp at h
        exact dropWhile_head_false h
      · rw [Bool.not_eq_true] at hx
        rw [hx] at h
        simp at h
        rw [← h.1]
        exact hx

theorem matchClasses_append :
    ∀ {cls : List (Char → Bool)} {xs : List Char} (rest : List Char),
      matchClasses cls xs = some (xs, []) →
      matchClasses cls (xs ++ rest) = some (xs, rest)
  | [], xs, rest, h => by
      simp [matchClasses] at h
      simp [h, matchClasses]
  | cl :: cls, [], rest, h => by
      simp [matchClasses] at h
  | cl :: cls, x :: xs, rest, h => by
      rw [matchClasses] at h
      rw [List.cons_append, matchClasses]
      by_cases hx : cl x = true
      · rw [hx] at h ⊢
        simp only [if_pos rfl] at h ⊢
        cases hin : matchClasses cls xs with
        | none => rw [hin] at h; simp at h
        | some pr =>
            obtain ⟨tk, r⟩ := pr
            rw [hin] at h
            simp at h
            rw [h.1, h.2] at hin
            rw [matchClasses_append rest hin]
            simp
      · rw [Bool.not_eq_true] at hx
        rw [hx] at h
        simp at h

theorem tsWellFormed_shape {ts : List Char} (h : tsWellFormed ts = true) :
    ∃ d t', ts = d :: t' ∧ pyDigit d = true := by
  unfold tsWellFormed at h
  have h' := of_decide_eq_true h
  cases ts with
  | nil => simp [tsClasses, clockClasses, matchClasses] at h'
  | cons d t' =>
      refine ⟨d, t', rfl, ?_⟩
      by_cases hd : pyDigit d = true
      · exact hd
      · rw [Bool.not_eq_true] at hd
        simp [tsClasses, clockClasses, matchClasses, hd] at h'

theorem hasBlankLine_cons (x : Char) {l : List Char}
    (h : hasBlankLine l = true) : hasBlankLine (x :: l) = true := by
  cases l with
  | nil => simp [hasBlankLine] at h
  | cons y l' => simp [hasBlankLine, h]

theorem hasBlankLine_suffix :
    ∀ (u : List Char) {v : List Char},
      hasBlankLine v = true → hasBlankLine (u ++ v) = true
  | [], v, h => h
  | x :: u, v, h => hasBlankLine_cons x (hasBlankLine_suffix u h)

theorem takeLazy_split :
    ∀ (u w : List Char),
      (∀ v, v ≠ [] → v <:+ u → lookaheadHit (v ++ w) = false) →
      lookaheadHit w = true →
      takeLazy (u ++ w) = (u, w)
  | [], w, _, hw => by
      cases w with
      | nil => rfl
      | cons c rest => simp [takeLazy, hw]
  | a :: u, w, hu, hw => by
      have hfalse : lookaheadHit (a :: u ++ w) = false :=
        hu (a :: u) (by simp) (List.suffix_refl _)
      rw [List.cons_append, takeLazy]
      rw [List.cons_append] at hfalse
      rw [hfalse]
      simp [takeLazy_split u w
        (fun v hv hsuf => hu v hv (hsuf.trans (List.suffix_cons a u))) hw]

/-- Inside a text with no blank line, placed before a newline that is
not followed by a digit, the lookahead cannot fire early. -/
theorem lookaheadHit_in_text {txt w' : List Char}
    (hnb : hasBlankLine txt = false)
    (hw2 : ∀ d w'', w' = d :: w'' → pyDigit d = false) :
    ∀ v, v ≠ [] → v <:+ txt → lookaheadHit (v ++ '\n' :: w') = false := by
  intro v hv hsuf
  match v, hv with
  | v0 :: v1, _ =>
    match v1 with
    | [] =>
        show lookaheadHit (v0 :: '\n' :: w') = false
        rw [lookaheadHit]
        cases w' with
        | nil => simp [List.takeWhile_nil]
        | cons d w'' =>
            have hd : pyDigit d = false := hw2 d w'' rfl
            simp [List.takeWhile_cons, hd]
    | v1h :: v1t =>
        show lookaheadHit (v0 :: v1h :: (v1t ++ '\n' :: w')) = false
        by_cases h0 : v0 = '\n'
        · by_cases h1 : v1h = '\n'
          · exfalso
            subst h0
            subst h1
            obtain ⟨u, hu⟩ := hsuf
            have hbl : hasBlankLine txt = true := by
              rw [← hu]
              exact hasBlankLine_suffix u (by simp [hasBlankLine])
            rw [hnb] at hbl
            exact absurd hbl (by simp)
          · rw [lookaheadHit]
            simp [h1]
        · rw [lookaheadHit]
          simp [h0]

/-- The block stream of a non-empty cue list: first block, then a
newline joiner and the rest when the rest is non-empty. -/
theorem blockStream_cons (c : Cue) (rest : List Cue) :
    blockStream (c :: rest) = formatBlock c ++
      (if rest = [] then [] else '\n' :: blockStream rest) := by
  cases rest with
  | nil => simp [blockStream, List.intercalate]
  | cons r rs =>
      simp [blockStream, List.intercalate, List.intersperse]

/-- The shape of one formatted block followed by further content. -/
theorem formatBlock_append (c : Cue) (w : List Char) :
    formatBlock c ++ w = natDigits c.index ++ '\n' ::
      (c.timestamp ++ '\n' :: (c.text ++ '\n' :: w)) := by
  simp [formatBlock]

/-- The lookahead fires at the separator before any further block. -/
theorem lookaheadHit_sep (r : Cue) (rs : List Cue) :
    lookaheadHit ('\n' :: '\n' :: blockStream (r :: rs)) = true := by
  rw [blockStream_cons, formatBlock_append]
  rw [lookaheadHit]
  rw [takeWhile_append_all _ (natDigits_digits r.index)]
  rw [dropWhile_append_all _ (natDigits_digits r.index)]
  have h1 : pyDigit '\n' = false := by decide
  simp [List.takeWhile_cons, List.dropWhile_cons, h1, natDigits_ne_nil r.index]
  decide

/-- The scanner matches a well-behaved block at its start: the groups
are the index digits, the timestamp, and the text without its leading
whitespace; the scan resumes at the newline before the remainder. -/
theorem matchBlockAt_block {c : Cue} {w : List Char}
    (hts : tsWellFormed c.timestamp = true)
    (htext : c.text.any (fun ch => !pySpace ch) = true)
    (hnb : hasBlankLine c.text = false)
    (hw1 : lookaheadHit ('\n' :: w) = true)
    (hw2 : ∀ d w'', w = d :: w'' → pyDigit d = false) :
    matchBlockAt (formatBlock c ++ w) =
      some ((natDigits c.index, c.timestamp, c.text.dropWhile pySpace),
        '\n' :: w) := by
  obtain ⟨d, ts', hts_eq, hd⟩ := tsWellFormed_shape hts
  have hdsp : pySpace d = false := pyDigit_not_space hd
  have htail : c.text.dropWhile pySpace ≠ [] := by
    intro hnil
    rw [List.dropWhile_eq_nil_iff] at hnil
    obtain ⟨x, hx, hxs⟩ := List.any_eq_true.mp htext
    have h2 := hnil x hx
    simp at hxs
    rw [hxs] at h2
    exact absurd h2 (by simp)
  obtain ⟨d0, t0, htt⟩ : ∃ d0 t0, c.text.dropWhile pySpace = d0 :: t0 := by
    cases h : c.text.dropWhile pySpace with
    | nil => exact absurd h htail
    | cons a b => exact ⟨a, b, rfl⟩
  have hd0 : pySpace d0 = false := dropWhile_head_false htt
  have hdecomp : c.text = c.text.takeWhile pySpace ++ (d0 :: t0) := by
    conv_lhs => rw [← List.takeWhile_append_dropWhile (p := pySpace) (l := c.text)]
    rw [htt]
  have hpre : ∀ x ∈ c.text.takeWhile pySpace, pySpace x = true :=
    fun x hx => List.mem_takeWhile_imp hx
  have hnl_d : pyDigit '\n' = false := by decide
  have hnl_s : pySpace '\n' = true := by decide
  have e1 : (natDigits c.index ++ '\n' ::
      (c.timestamp ++ '\n' :: (c.text ++ '\n' :: w))).takeWhile pyDigit =
      natDigits c.index := by
    rw [takeWhile_append_all _ (natDigits_digits c.index)]
    simp [List.takeWhile_cons, hnl_d]
  have e2 : (natDigits c.index ++ '\n' ::
      (c.timestamp ++ '\n' :: (c.text ++ '\n' :: w))).dropWhile pyDigit =
      '\n' :: (c.timestamp ++ '\n' :: (c.text ++ '\n' :: w)) := by
    rw [dropWhile_append_all _ (natDigits_digits c.index)]
    simp [List.dropWhile_cons, hnl_d]
  have e3 : ('\n' :: (c.timestamp ++ '\n' ::
      (c.text ++ '\n' :: w))).takeWhile pySpace = ['\n'] := by
    rw [hts_eq]
    simp [List.takeWhile_cons, hnl_s, hdsp]
  have e4 : ('\n' :: (c.timestamp ++ '\n' ::
      (c.text ++ '\n' :: w))).dropWhile pySpace =
      c.timestamp ++ '\n' :: (c.text ++ '\n' :: w) := by
    rw [hts_eq]
    simp [List.dropWhile_cons, hnl_s, hdsp]
  have e5 : matchClasses tsClasses (c.timestamp ++ '\n' ::
      (c.text ++ '\n' :: w)) =
      some (c.timestamp, '\n' :: (c.text ++ '\n' :: w)) := by
    unfold tsWellFormed at hts
    exact matchClasses_append _ (of_decide_eq_true hts)
  have e6 : ('\n' :: (c.text ++ '\n' :: w)).takeWhile pySpace =
      '\n' :: c.text.takeWhile pySpace := by
    conv_lhs => rw [hdecomp]
    rw [List.append_assoc]
    simp only [List.takeWhile_cons, hnl_s, if_true]
    rw [takeWhile_append_all _ hpre]
    simp [List.takeWhile_cons, hd0]
  have e7 : ('\n' :: (c.text ++ '\n' :: w)).dropWhile pySpace =
      (d0 :: t0) ++ '\n' :: w := by
    conv_lhs => rw [hdecomp]
    rw [List.append_assoc]
    simp only [List.dropWhile_cons, hnl_s, if_true]
    rw [dropWhile_append_all _ hpre]
    simp [List.dropWhile_cons, hd0]
  have e8 : takeLazy ((d0 :: t0) ++ '\n' :: w) = (d0 :: t0, '\n' :: w) := by
    refine takeLazy_split _ _ ?_ hw1
    intro v hv hsuf
    refine lookaheadHit_in_text hnb hw2 v hv ?_
    have h1 : (d0 :: t0) <:+ c.text := htt ▸ List.dropWhile_suffix pySpace
    exact hsuf.trans h1
  rw [formatBlock_append]
  simp only [matchBlockAt, e1, e2, e3, e4, e5, e6, e7, e8]
  rw [if_neg (natDigits_ne_nil c.index)]
  simp [htt]

theorem scanGo_nil : ∀ fuel, scanGo fuel [] = []
  | 0 => rfl
  | _ + 1 => rfl

theorem scanGo_step_some {fuel : Nat} {s : List Char}
    {tr : List Char × List Char × List Char} {rest : List Char}
    (h : matchBlockAt s = some (tr, rest)) :
    scanGo (fuel + 1) s = tr :: scanGo fuel rest := by
  simp only [scanGo, h]

theorem scanGo_step_none {fuel : Nat} {x : Char} {t : List Char}
    (h : matchBlockAt (x :: t) = none) :
    scanGo (fuel + 1) (x :: t) = scanGo fuel t := by
  simp only [scanGo, h]

theorem matchBlockAt_newline (xs : List Char) :
    matchBlockAt ('\n' :: xs) = none := by
  have h : pyDigit '\n' = false := by decide
  simp [matchBlockAt, List.takeWhile_cons, h]

/-- The scan of the block stream of well-behaved cues finds exactly one
triple per cue, in order: the index digits, the timestamp, and the text
without its leading whitespace. -/
theorem scanGo_stream :
    ∀ (cues : List Cue) (fuel : Nat),
      (∀ c ∈ cues, goodCue c = true) →
      (blockStream cues).length + 1 ≤ fuel →
      scanGo fuel (blockStream cues) =
        cues.map (fun c =>
          (natDigits c.index, c.timestamp, c.text.dropWhile pySpace))
  | [], fuel, _, hfuel => by
      have h : blockStream [] = [] := rfl
      rw [h, scanGo_nil]
      rfl
  | c :: rest, fuel, hgood, hfuel => by
      have hc := hgood c (List.mem_cons_self _ _)
      unfold goodCue at hc
      simp only [Bool.and_eq_true] at hc
      obtain ⟨⟨hts, htext⟩, hnb⟩ := hc
      rw [Bool.not_eq_true'] at hnb
      have hfb3 : 3 ≤ (formatBlock c).length := by
        simp [formatBlock]
        omega
      cases rest with
      | nil =>
          have hbs : blockStream [c] = formatBlock c ++ [] := by
            rw [blockStream_cons]
            simp
          rw [hbs]
          have hlen : (blockStream [c]).length = (formatBlock c).length := by
            rw [hbs]; simp
          obtain ⟨f, rfl⟩ : ∃ f, fuel = f + 3 := by
            refine ⟨fuel - 3, ?_⟩
            rw [hlen] at hfuel
            omega
          rw [show f + 3 = (f + 2) + 1 by omega,
            scanGo_step_some (matchBlockAt_block hts htext hnb (by decide)
              (fun d w'' h => by simp at h))]
          rw [show f + 2 = (f + 1) + 1 by omega,
            scanGo_step_none (matchBlockAt_newline [])]
          rw [scanGo_nil]
          rfl
      | cons r rs =>
          have hbs : blockStream (c :: r :: rs) =
              formatBlock c ++ '\n' :: blockStream (r :: rs) := by
            rw [blockStream_cons]
            simp
          rw [hbs]
          have hlen : (blockStream (c :: r :: rs)).length =
              (formatBlock c).length + 1 + (blockStream (r :: rs)).length := by
            rw [hbs]; simp
            omega
          obtain ⟨f, rfl⟩ : ∃ f, fuel = f + 3 := by
            refine ⟨fuel - 3, ?_⟩
            rw [hlen] at hfuel
            omega
          have hw2 : ∀ (d : Char) (w'' : List Char),
              '\n' :: blockStream (r :: rs) = d :: w'' → pyDigit d = false := by
            intro d w'' h
            injection h with h1 _
            rw [← h1]
            decide
          rw [show f + 3 = (f + 2) + 1 by omega,
            scanGo_step_some (matchBlockAt_block hts htext hnb
              (lookaheadHit_sep r rs) hw2)]
          rw [show f + 2 = (f + 1) + 1 by omega,
            scanGo_step_none (matchBlockAt_newline _)]
          rw [scanGo_step_none (matchBlockAt_newline _)]
          rw [scanGo_stream (r :: rs) f
            (fun x hx => hgood x (List.mem_cons_of_mem _ hx))
            (by rw [hlen] at hfuel; omega)]
          rfl

/-- C3 (amended): for every cue list whose timestamps match the
timestamp pattern exactly and whose texts hold at least one
non-whitespace character and no blank line, parsing the formatted
output yields the same number of cues and every timestamp round-trips
exactly, including the final block, which format_srt emits without a
terminating blank line and parse_srt captures via the end-of-input
alternative of its lookahead. -/
theorem C3_parse_format_roundtrip (cues : List Cue)
    (h : ∀ c ∈ cues, goodCue c = true) :
    (parse_srt (format_srt cues)).length = cues.length ∧
    (parse_srt (format_srt cues)).map Cue.timestamp = cues.map Cue.timestamp := by
  have hformat : format_srt cues = blockStream cues := by
    unfold format_srt blockStream
    rw [srtContentList_eq]
    congr 1
    rw [List.filter_eq_self.mpr]
    intro c hc
    have hgc := h c hc
    unfold goodCue at hgc
    simp only [Bool.and_eq_true] at hgc
    have := hgc.1.2
    simp only [decide_eq_true_eq]
    intro hnil
    rw [hnil] at this
    simp at this
  rw [hformat]
  unfold parse_srt scanSrt
  rw [scanGo_stream cues _ h (le_refl _)]
  constructor
  · simp
  · simp

/-- C3 witness: a two-cue list satisfying the amended hypotheses whose
formatted output parses back to two cues with the same timestamps. -/
theorem C3_witness :
    goodCue ⟨1, tsA, "a".toList⟩ = true ∧ goodCue ⟨2, tsB, "b".toList⟩ = true ∧
    (parse_srt (format_srt exFallbackCues)).length = exFallbackCues.length ∧
    (parse_srt (format_srt exFallbackCues)).map Cue.timestamp =
      exFallbackCues.map Cue.timestamp :=
  ⟨by decide, by decide, C3_parse_format_roundtrip exFallbackCues (by decide)⟩

theorem indexOf_eq_of {ch : Char} :
    ∀ {l : List Char} {n : Nat},
      l.get? n = some ch → (∀ m, m < n → l.get? m ≠ some ch) →
      l.indexOf ch = n
  | [], n, hn, _ => by simp at hn
  | x :: l, n, hn, hbef => by
      by_cases hx : x = ch
      · cases n with
        | zero =>
            subst hx
            exact List.indexOf_cons_self x l
        | succ n' =>
            exact absurd (by simp [hx]) (hbef 0 (by omega))
      · cases n with
        | zero =>
            simp at hn
            exact absurd hn hx
        | succ n' =>
            rw [List.indexOf_cons_ne _ hx]
            have hrec := indexOf_eq_of (l := l) (n := n') (by simpa using hn)
              (fun m hm => by
                have := hbef (m + 1) (by omega)
                simpa using this)
            omega

theorem pyRfindBefore_eq {s : List Char} {ch : Char} {stop p : Nat}
    (hstop : stop ≤ s.length) (hp : p < stop) (hch : s.get? p = some ch)
    (hafter : ∀ q, q < stop → p < q → s.get? q ≠ some ch) :
    pyRfindBefore s ch stop = some p := by
  simp only [pyRfindBefore]
  have hlen : (s.take stop).length = stop := by
    simp
    omega
  have htake : ∀ m, m < stop → (s.take stop).get? m = s.get? m :=
    fun m hm => List.get?_take hm
  have hrev : (s.take stop).reverse.indexOf ch = stop - 1 - p := by
    apply indexOf_eq_of
    · rw [List.get?_reverse (by omega : stop - 1 - p < (s.take stop).length)]
      rw [hlen, show stop - 1 - (stop - 1 - p) = p by omega]
      rw [htake p hp]
      exact hch
    · intro m hm
      rw [List.get?_reverse (by omega : m < (s.take stop).length)]
      rw [hlen, htake (stop - 1 - m) (by omega)]
      exact hafter (stop - 1 - m) (by omega) (by omega)
  rw [hrev]
  rw [if_pos (by rw [hlen]; omega)]
  rw [hlen]
  congr 1
  omega

theorem pyFindFrom_eq {s : List Char} {ch : Char} {start q : Nat}
    (hq1 : start ≤ q) (hq2 : q < s.length) (hch : s.get? q = some ch)
    (hbefore : ∀ r, r < q → start ≤ r → s.get? r ≠ some ch) :
    pyFindFrom s ch start = some q := by
  simp only [pyFindFrom]
  have hidx : (s.drop start).indexOf ch = q - start := by
    apply indexOf_eq_of
    · rw [List.get?_eq_getElem?, List.getElem?_drop,
        show start + (q - start) = q by omega, ← List.get?_eq_getElem?]
      exact hch
    · intro m hm
      rw [List.get?_eq_getElem?, List.getElem?_drop, ← List.get?_eq_getElem?]
      exact hbefore (start + m) (by omega) (by omega)
  rw [hidx]
  rw [if_pos (by simp; omega)]
  congr 1
  omega

/-- Start-boundary characterization on its own: when the start is
positive, the character before it is not a space, and a previous space
exists, snapStart moves the start to one past the greatest space index
before it, whatever the end endpoint looks like. -/
theorem snapStart_prev_space {ref : List Char} {cs p : Nat}
    (hcs_le : cs ≤ ref.length) (hcs_pos : 0 < cs)
    (hcs_sp : pyGet ref ((cs : Int) - 1) ≠ some ' ')
    (hp1 : p < cs) (hp2 : ref.get? p = some ' ')
    (hp3 : ∀ p2, p2 < cs → p < p2 → ref.get? p2 ≠ some ' ') :
    snapStart ref cs = some (p + 1) := by
  unfold snapStart
  rw [if_pos hcs_pos]
  obtain ⟨c, hc⟩ := Option.isSome_iff_exists.mp
    (pyGet_isSome (s := ref) (i := (cs : Int) - 1) (by omega) (by omega))
  rw [hc]
  have hcne : c ≠ ' ' := by
    intro hsp
    rw [hsp] at hc
    exact hcs_sp hc
  simp [hcne, @pyRfindBefore_eq ref ' ' cs p hcs_le hp1 hp2 hp3]

/-- End-boundary characterization on its own: when the character ending
the span is not a space and a next space exists, snapEnd moves the end
to the least space index at or after it, whatever the start endpoint
looks like. -/
theorem snapEnd_next_space {ref : List Char} {ce q : Nat}
    (hce_sp : pyGet ref ((ce : Int) - 1) ≠ some ' ')
    (hq1 : ce ≤ q) (hq2 : q < ref.length) (hq3 : ref.get? q = some ' ')
    (hq4 : ∀ q2, q2 < q → ce ≤ q2 → ref.get? q2 ≠ some ' ') :
    snapEnd ref ce = some q := by
  unfold snapEnd
  rw [if_pos (show ce < ref.length by omega)]
  obtain ⟨c', hc'⟩ := Option.isSome_iff_exists.mp
    (pyGet_isSome (s := ref) (i := (ce : Int) - 1) (by omega) (by omega))
  rw [hc']
  have hcne' : c' ≠ ' ' := by
    intro hsp
    rw [hsp] at hc'
    exact hce_sp hc'
  simp [hcne', @pyFindFrom_eq ref ' ' ce q hq1 hq2 hq3 hq4]

/-- C6: after deriving the span, the aligner snaps each endpoint to a
word boundary, and the two rules are independent of one another:
whenever the start is positive and the character before it is not a
space, the start moves back to one past the previous space (the
greatest space index before it, which that clause presupposes to
exist); and whenever the character ending the span is not a space, the
end moves forward to the next space of the reference text (the least
space index at or after it, again presupposed to exist).  Each rule is
stated as its own implication over the one snap result, so either
applies on its own, whatever holds at the other endpoint. -/
theorem C6_snap_to_word_boundaries (ref : List Char) (cs ce : Nat)
    (hcs_le : cs ≤ ref.length) :
    ∃ r, snapBoundaries ref cs ce = some r ∧
      (0 < cs → pyGet ref ((cs : Int) - 1) ≠ some ' ' →
        ∀ p, p < cs → ref.get? p = some ' ' →
          (∀ p2, p2 < cs → p < p2 → ref.get? p2 ≠ some ' ') →
          r.1 = p + 1) ∧
      (pyGet ref ((ce : Int) - 1) ≠ some ' ' →
        ∀ q, ce ≤ q → q < ref.length → ref.get? q = some ' ' →
          (∀ q2, q2 < q → ce ≤ q2 → ref.get? q2 ≠ some ' ') →
          r.2 = q) := by
  obtain ⟨cs', h1⟩ := Option.isSome_iff_exists.mp (snapStart_isSome hcs_le)
  obtain ⟨ce', h2⟩ := Option.isSome_iff_exists.mp (@snapEnd_isSome ref ce)
  refine ⟨(cs', ce'), by simp [snapBoundaries, h1, h2], ?_, ?_⟩
  · intro hpos hsp p hp1 hp2 hp3
    have heq := snapStart_prev_space hcs_le hpos hsp hp1 hp2 hp3
    rw [h1] at heq
    simpa using heq
  · intro hsp q hq1 hq2 hq3 hq4
    have heq := snapEnd_next_space hsp hq1 hq2 hq3 hq4
    rw [h2] at heq
    simpa using heq

/-- C6 witness: on the reference "ab cd ef" with both endpoints at 4,
the start rule alone gives 3 (one past the space at 2) and the end rule
alone gives 5 (the next space), recovering the full snap result. -/
theorem C6_witness :
    snapBoundaries "ab cd ef".toList 4 4 = some (3, 5) := by
  obtain ⟨r, hr, hstart, hend⟩ :=
    C6_snap_to_word_boundaries "ab cd ef".toList 4 4 (by decide)
  obtain ⟨r1, r2⟩ := r
  have h1 : r1 = 3 := hstart (by decide) (by decide) 2 (by decide) (by decide)
    (by decide)
  have h2 : r2 = 5 := hend (by decide) 5 (by decide) (by decide) (by decide)
    (by decide)
  rw [h1, h2] at hr
  exact hr

theorem tlGo_chain (to_text : List Char) :
    ∀ (lines : List (List Char)) (cur : Nat),
      SliceChain to_text cur (tlGo to_text lines cur).1
        (tlGo to_text lines cur).2
  | [], cur => SliceChain.nil cur
  | line :: rest, cur => by
      simp only [tlGo]
      by_cases h : pyStrip line = []
      · simp only [if_pos h]
        exact tlGo_chain to_text rest cur
      · simp only [if_neg h]
        exact SliceChain.cons _ _ _ _ (tlGo_chain to_text rest _)

theorem sliceChain_trimmed {tgt : List Char} :
    ∀ {cur : Nat} {lines : List (List Char)} {last : Nat},
      SliceChain tgt cur lines last →
      ∀ out ∈ lines, IsTrimmedSubstring out tgt := by
  intro cur lines last h
  induction h with
  | nil => intro out hout; simp at hout
  | cons cur inc rest last _ ih =>
      intro out hout
      rcases List.mem_cons.mp hout with h | h
      · exact ⟨cur, cur + inc, h⟩
      · exact ih out h

/-- C10: every line transfer_linebreaks appends to its output is a
trimmed contiguous substring of to_text (it is cut from to_text, never
from from_text), and the slices producing successive lines are taken at
consecutive positions of to_text, left to right: each next slice starts
exactly where the previous one ended, so the cursor never moves
backward and the slices never overlap. -/
theorem C10_transfer_linebreaks_slices (from_text to_text : List Char) :
    SliceChain to_text 0
      (tlGo to_text (pySplitlines (pyStrip from_text)) 0).1
      (tlGo to_text (pySplitlines (pyStrip from_text)) 0).2 ∧
    (∀ out ∈ (tlGo to_text (pySplitlines (pyStrip from_text)) 0).1,
      IsTrimmedSubstring out to_text) ∧
    transfer_linebreaks from_text to_text = List.intercalate ['\n']
      (tlGo to_text (pySplitlines (pyStrip from_text)) 0).1 := by
  have hch := tlGo_chain to_text (pySplitlines (pyStrip from_text)) 0
  exact ⟨hch, sliceChain_trimmed hch, rfl⟩

end SubCorr
